import Mathlib

/-!
Verification development for `yt_batch_download.py`.

Strings are modelled as `List Char`; Python's `str.strip` / regex `\s` are
modelled over the six ASCII whitespace characters.  Fallible code is modelled
with `Except`; the external download capability (`yt_dlp.YoutubeDL`) is an
opaque parameter returning `Except` (its exception message on failure).
-/

deriving instance DecidableEq for Except

namespace YtBatch

abbrev Str := List Char

/-- ASCII whitespace, modelling Python `str.strip()` / regex `\s`. -/
def pyIsSpace (c : Char) : Bool :=
  c = ' ' || c = '\t' || c = '\n' || c = '\r' || c = '\x0B' || c = '\x0C'

/-- Embeds `INVALID_CHARS = r'<>:"/\\|?*'` (line 17 of the source). -/
def INVALID_CHARS : Str := ['<', '>', ':', '\"', '/', '\\', '|', '?', '*']

def isInvalid (c : Char) : Bool := INVALID_CHARS.contains c

/-- Python `s.rstrip(chars)` restricted to a Boolean character predicate. -/
def rstripP (p : Char → Bool) (s : Str) : Str := (s.reverse.dropWhile p).reverse

/-- Python `s.strip()` (whitespace from both ends). -/
def pyStrip (s : Str) : Str := rstripP pyIsSpace (s.dropWhile pyIsSpace)

/-- Embeds `re.sub(rf"[{...}]", "_", name)` on line 22: replace every
reserved character by an underscore. -/
def replaceInvalid (s : Str) : Str := s.map (fun c => if isInvalid c then '_' else c)

/-- Worker for `re.sub(r"\s+", " ", name)`: the Boolean records whether the
previous character was part of a whitespace run already emitted as " ". -/
def collapseGo : Bool → Str → Str
  | _, [] => []
  | prev, c :: rest =>
    if pyIsSpace c then
      if prev then collapseGo true rest else ' ' :: collapseGo true rest
    else c :: collapseGo false rest

/-- Embeds `re.sub(r"\s+", " ", name)` on line 24. -/
def collapseWS (s : Str) : Str := collapseGo false s

/-- Embeds `name.rstrip(" .")` on line 26. -/
def rstripSpaceDot (s : Str) : Str := rstripP (fun c => c = ' ' || c = '.') s

/-- Lines 21-26 of `sanitize_filename`: strip, replace reserved characters,
collapse whitespace, strip trailing spaces and periods. -/
def cleaned (name : Str) : Str :=
  rstripSpaceDot (collapseWS (replaceInvalid (pyStrip name)))

/-- Embeds `sanitize_filename` (lines 19-31), with `max_len = 180` as in every
call site: after cleaning, truncate to 180 characters and `rstrip()` the
result (whitespace only), and fall back to `"video"` when empty. -/
def sanitize_filename (name : Str) : Str :=
  let n4 := cleaned name
  let n5 := if 180 < n4.length then rstripP pyIsSpace (n4.take 180) else n4
  if n5.isEmpty then "video".data else n5

/-!
Shell-style pattern matching, embedding the semantics of
`out_dir.glob(safe_name + ".*")` on line 80 of the source.  `pathlib`
compiles each pattern component with `fnmatch.translate`:
`*` matches any run, `?` any single character, and `[...]` a character
class (leading `!` negates, a `]` right after `[`/`[!` is literal, and an
unclosed `[` is a literal bracket). -/

/-- A token of a translated pattern. -/
inductive GlobTok where
  | star : GlobTok
  | anyChar : GlobTok
  | lit : Char → GlobTok
  | cls : Str → GlobTok
deriving DecidableEq

/-- Splits a string at its first `]`, returning the part before it and the
part after it; `none` when there is no `]`. -/
def findClose : Str → Option (Str × Str)
  | [] => none
  | c :: r =>
    if c = ']' then some ([], r)
    else (findClose r).map (fun q => (c :: q.1, q.2))

/-- Splits off the prefix of a class body that `fnmatch.translate` always
consumes: an optional leading `!`, then an optional literal `]`. -/
def classSplit (p : Str) : Str × Str :=
  match p with
  | '!' :: ']' :: r => (['!', ']'], r)
  | '!' :: r => (['!'], r)
  | ']' :: r => ([']'], r)
  | r => ([], r)

/-- Scans the body of a `[...]` class following `fnmatch.translate`: the
forced prefix, then everything up to the closing `]`.  Returns the class
body and the rest of the pattern, or `none` when the bracket is unclosed. -/
def parseClass (p : Str) : Option (Str × Str) :=
  (findClose (classSplit p).2).map (fun q => ((classSplit p).1 ++ q.1, q.2))

/-- Fuel-indexed worker for `translateTokens`; the fuel is an upper bound on
the pattern length, so it never runs out on the intended calls. -/
def transGo : Nat → Str → List GlobTok
  | 0, _ => []
  | _ + 1, [] => []
  | fuel + 1, c :: p =>
    if c = '*' then .star :: transGo fuel p
    else if c = '?' then .anyChar :: transGo fuel p
    else if c = '[' then
      match parseClass p with
      | some (stuff, rest) => .cls stuff :: transGo fuel rest
      | none => .lit '[' :: transGo fuel p
    else .lit c :: transGo fuel p

/-- Tokenizes a shell pattern, following `fnmatch.translate`. -/
def translateTokens (p : Str) : List GlobTok := transGo p.length p

/-- Matches a character against the items of a character class, with
`a-b` ranges as in a regular-expression class. -/
def matchItems : Str → Char → Bool
  | a :: '-' :: b :: rest, c =>
    (a.val ≤ c.val && c.val ≤ b.val) || matchItems rest c
  | a :: rest, c => a = c || matchItems rest c
  | [], _ => false

/-- Matches a character against a class body (leading `!` negates). -/
def clsMatch (stuff : Str) (c : Char) : Bool :=
  match stuff with
  | '!' :: items => !(matchItems items c)
  | items => matchItems items c

def tokMatch : GlobTok → Char → Bool
  | .star, _ => false
  | .anyChar, _ => true
  | .lit a, c => a = c
  | .cls stuff, c => clsMatch stuff c

/-- Matches a token list against a string; `star` matches any suffix split. -/
def matchToks : List GlobTok → Str → Bool
  | [], s => s.isEmpty
  | .star :: p, s => s.tails.any (fun t => matchToks p t)
  | t :: p, s =>
    match s with
    | [] => false
    | c :: rest => tokMatch t c && matchToks p rest

/-- Embeds the matching done by `out_dir.glob(pattern)` for one candidate
file name. -/
def globMatch (pat s : Str) : Bool := matchToks (translateTokens pat) s

/-!
The tabular input reader (`find_columns`, lines 33-37, and `read_rows`,
lines 39-72).  The CSV layer itself (`csv.reader` / `csv.DictReader` field
splitting and the `Sniffer` header heuristic) is external to the program's
logic; the input is modelled as the already-split rows (each row a list of
fields) plus the Boolean result of the header heuristic.  `read_rows` is a
generator whose `ValueError` (missing columns) fires on the first step,
before any pair is yielded, so it is modelled as an `Except` computed
before the orchestrator loop starts. -/

def NAME_KEYS : List Str := ["name".data, "title".data, "video_name".data]
def URL_KEYS : List Str := ["link".data, "url".data, "video_url".data]

def lowerStr (s : Str) : Str := s.map Char.toLower

/-- Embeds `find_columns` (lines 33-37): the first field whose lowercase
form is a name alias, and the first whose lowercase form is a url alias. -/
def find_columns (fieldnames : List Str) : Option Str × Option Str :=
  (fieldnames.find? (fun f => NAME_KEYS.contains (lowerStr f)),
   fieldnames.find? (fun f => URL_KEYS.contains (lowerStr f)))

/-- Index used by `csv.DictReader` for a column name: the dictionary built
from `zip(fieldnames, row)` keeps the value of the last occurrence, and
fields missing from a short row are reset to `None` afterwards, so the last
occurrence decides. -/
def lastIdxOf (header : List Str) (col : Str) : Option Nat :=
  (header.reverse.findIdx? (fun f => f = col)).map
    (fun i => header.length - 1 - i)

/-- Embeds `row.get(col) or ""` under `csv.DictReader`: the row value at the
column's index, or empty when the row is too short (`restval = None`). -/
def lookupCol (header row : List Str) (col : Str) : Str :=
  match lastIdxOf header col with
  | some i => row.getD i []
  | none => []

/-- A validated (name, url) pair, the unit yielded by `read_rows`. -/
structure Entry where
  name : Str
  url : Str
deriving DecidableEq

/-- Lines 58-62 for a single row in header mode: trim both resolved fields
and yield the pair only when both are non-empty. -/
def rowEntry (header : List Str) (n u : Str) (row : List Str) : Option Entry :=
  let name := pyStrip (lookupCol header row n)
  let url := pyStrip (lookupCol header row u)
  if !name.isEmpty && !url.isEmpty then some ⟨name, url⟩ else none

/-- Lines 63-72 (headerless mode), with `enumerate(reader, start=1)`: a row
with fewer than two fields adds the stderr line
`Skipping row i: expected 2 columns, got k`, modelled as the pair `(i, k)`;
otherwise positions 0 and 1 are trimmed and yielded when both non-empty. -/
def headerlessGo : Nat → List (List Str) → List Entry × List (Nat × Nat)
  | _, [] => ([], [])
  | i, row :: rest =>
    let acc := headerlessGo (i + 1) rest
    if row.length < 2 then (acc.1, (i, row.length) :: acc.2)
    else
      let name := pyStrip (row.getD 0 [])
      let url := pyStrip (row.getD 1 [])
      if !name.isEmpty && !url.isEmpty then (⟨name, url⟩ :: acc.1, acc.2)
      else (acc.1, acc.2)

/-- Embeds `read_rows` (lines 39-72).  On success it returns the yielded
entries together with the headerless-mode stderr skip messages; the error
payload is `reader.fieldnames` as interpolated into the `ValueError`
message (`none` models a header-mode file with no rows, where
`reader.fieldnames` is `None`). -/
def read_rows (hasHeader : Bool) (rows : List (List Str)) :
    Except (Option (List Str)) (List Entry × List (Nat × Nat)) :=
  if hasHeader then
    match rows with
    | [] => .error none
    | header :: body =>
      match find_columns header with
      | (some n, some u) => .ok (body.filterMap (rowEntry header n u), [])
      | _ => .error (some header)
  else
    .ok (headerlessGo 1 rows)

/-!
The batch orchestrator: `download_video` (lines 74-100) and the counting
loop of `main` (lines 119-131).  The external download capability is a
parameter `cap : Str → Except Str Unit`, mapping the url to either success
or the exception message it raises; the directory listing observed before
entry number `i` is a parameter `listings i`, since downloads may add
files between iterations. -/

/-- Embeds line 80: `existing = list(out_dir.glob(safe_name + ".*"))`, and
line 81's truthiness test on the resulting list. -/
def existsCheck_code (listing : List Str) (safe : Str) : Bool :=
  !((listing.filter (fun f => globMatch (safe ++ ['.', '*']) f)).isEmpty)

/-- Modelled from the spec: the "file already exists with any extension"
check as "an explicit directory listing filtered by prefix match" — some
file name starts with the safe base name followed by a period. -/
def existsCheck_spec (listing : List Str) (safe : Str) : Bool :=
  listing.any (fun f => (safe ++ ['.']).isPrefixOf f)

/-- Outcome of one `download_video` call as observed by `main`: either the
`[skip]` path, a completed download, or an exception from the capability
(carrying the entry name, url and message that line 126 logs). -/
inductive ItemEvent where
  | skipped : Str → ItemEvent
  | downloaded : Str → Str → ItemEvent
  | failed : Str → Str → Str → ItemEvent
deriving DecidableEq

/-- Lines 98-100: the capability is invoked on the url; an exception
becomes a `failed` event (caught on line 125 of `main`). -/
def invokeCap (cap : Str → Except Str Unit) (name url safe : Str) : ItemEvent :=
  match cap url with
  | .ok _ => .downloaded safe url
  | .error m => .failed name url m

/-- Embeds `download_video` (lines 74-100) for one entry. -/
def download_video (listing : List Str) (overwrite : Bool)
    (cap : Str → Except Str Unit) (name url : Str) : ItemEvent :=
  let safe := sanitize_filename name
  if existsCheck_code listing safe && !overwrite then .skipped safe
  else invokeCap cap name url safe

/-- Contribution of one item to `count` in `main`: line 124 runs only when
`download_video` returned without raising. -/
def tallyOf : ItemEvent → Nat
  | .failed _ _ _ => 0
  | _ => 1

def isFailed : ItemEvent → Bool
  | .failed _ _ _ => true
  | _ => false

/-- Embeds the loop of `main` (lines 119-126): `count` is threaded exactly
as in the source, increasing only when `download_video` did not raise. -/
def mainGo (listings : Nat → List Str) (overwrite : Bool)
    (cap : Str → Except Str Unit) : Nat → Nat → List Entry →
    List ItemEvent × Nat
  | _, count, [] => ([], count)
  | i, count, e :: rest =>
    let ev := download_video (listings i) overwrite cap e.name e.url
    let acc := mainGo listings overwrite cap (i + 1) (count + tallyOf ev) rest
    (ev :: acc.1, acc.2)

/-- The orchestrator loop started with `count = 0` on the first entry. -/
def run_main (listings : Nat → List Str) (overwrite : Bool)
    (cap : Str → Except Str Unit) (entries : List Entry) :
    List ItemEvent × Nat :=
  mainGo listings overwrite cap 0 0 entries

/-- Result of `main` after argument parsing: the fatal path of lines
127-129 (exit code 1, carrying the fieldnames named in the message) or
normal completion with the events and the final `count` of line 131. -/
inductive MainResult where
  | fatal : Option (List Str) → MainResult
  | finished : List ItemEvent → Nat → MainResult
deriving DecidableEq

def exitCode : MainResult → Nat
  | .fatal _ => 1
  | .finished _ _ => 0

def eventsOf : MainResult → List ItemEvent
  | .fatal _ => []
  | .finished evs _ => evs

/-- Embeds `main` (lines 102-131) after argument parsing: read the rows,
then run the per-entry loop; a reader error aborts with exit code 1 before
any download is attempted. -/
def pymain (hasHeader : Bool) (rows : List (List Str))
    (listings : Nat → List Str) (overwrite : Bool)
    (cap : Str → Except Str Unit) : MainResult :=
  match read_rows hasHeader rows with
  | .error h => .fatal h
  | .ok (entries, _) =>
    let r := run_main listings overwrite cap entries
    .finished r.1 r.2

/-- Per-entry outcomes of the orchestrator loop, written as a plain map
with the entry index: the specification-side view of `mainGo`. -/
def evList (listings : Nat → List Str) (overwrite : Bool)
    (cap : Str → Except Str Unit) : Nat → List Entry → List ItemEvent
  | _, [] => []
  | i, e :: rest =>
    download_video (listings i) overwrite cap e.name e.url ::
      evList listings overwrite cap (i + 1) rest

/-- Specification-side view of the headerless entries: rows with at least
two fields whose first two trimmed fields are both non-empty. -/
def hlEntries (rows : List (List Str)) : List Entry :=
  rows.filterMap (fun row =>
    if row.length < 2 then none
    else
      let name := pyStrip (row.getD 0 [])
      let url := pyStrip (row.getD 1 [])
      if !name.isEmpty && !url.isEmpty then some ⟨name, url⟩ else none)

/-- Specification-side view of the headerless skip messages: one
`(index, field count)` per row with fewer than two fields, indices
starting at `start`. -/
def hlLogs (rows : List (List Str)) (start : Nat) : List (Nat × Nat) :=
  (rows.enumFrom start).filterMap
    (fun p => if p.2.length < 2 then some (p.1, p.2.length) else none)

/-- Head character is not whitespace (or the string is empty). -/
def headNotWS : Str → Bool
  | [] => true
  | c :: _ => !pyIsSpace c

/-- Every whitespace character is a single space followed by a non-space
or the end of the string: the canonical shape `collapseGo` produces. -/
def wsOk : Str → Bool
  | [] => true
  | c :: rest => (!pyIsSpace c || (c = ' ' && headNotWS rest)) && wsOk rest

/-! Generic lemmas about `dropWhile` and right-stripping. -/

theorem head?_dropWhile (p : Char → Bool) :
    ∀ (l : Str) (c : Char), (l.dropWhile p).head? = some c → p c = false := by
  intro l
  induction l with
  | nil => intro c h; simp [List.dropWhile] at h
  | cons a t ih =>
    intro c h
    rw [List.dropWhile_cons] at h
    by_cases ha : p a
    · simp [ha] at h
      exact ih c h
    · simp [ha] at h
      subst h
      simpa using ha

theorem dropWhile_eq_self_of_head? (p : Char → Bool) (s : Str)
    (h : ∀ c, s.head? = some c → p c = false) : s.dropWhile p = s := by
  cases s with
  | nil => rfl
  | cons a t =>
    rw [List.dropWhile_cons]
    simp [h a rfl]

theorem rstripP_append (p : Char → Bool) (s : Str) :
    ∃ u, (∀ c ∈ u, p c = true) ∧ s = rstripP p s ++ u := by
  refine ⟨(s.reverse.takeWhile p).reverse, ?_, ?_⟩
  · intro c hc
    rw [List.mem_reverse] at hc
    exact List.mem_takeWhile_imp hc
  · have h := List.takeWhile_append_dropWhile (p := p) (l := s.reverse)
    have h2 := congrArg List.reverse h
    rw [List.reverse_append, List.reverse_reverse] at h2
    exact h2.symm

theorem rstripP_length_le (p : Char → Bool) (s : Str) :
    (rstripP p s).length ≤ s.length := by
  obtain ⟨u, _, hu⟩ := rstripP_append p s
  have h2 := congrArg List.length hu
  rw [List.length_append] at h2
  omega

theorem mem_rstripP (p : Char → Bool) (s : Str) (c : Char)
    (h : c ∈ rstripP p s) : c ∈ s := by
  obtain ⟨u, _, hu⟩ := rstripP_append p s
  rw [hu, List.mem_append]
  exact Or.inl h

theorem rstripP_getLast? (p : Char → Bool) (s : Str) (c : Char)
    (h : (rstripP p s).getLast? = some c) : p c = false := by
  unfold rstripP at h
  rw [List.getLast?_reverse] at h
  exact head?_dropWhile p _ c h

theorem rstripP_eq_self (p : Char → Bool) (s : Str)
    (h : ∀ c, s.getLast? = some c → p c = false) : rstripP p s = s := by
  unfold rstripP
  rw [dropWhile_eq_self_of_head?, List.reverse_reverse]
  intro c hc
  rw [List.head?_reverse] at hc
  exact h c hc

theorem head?_rstripP (p : Char → Bool) (s : Str) (c : Char)
    (h : (rstripP p s).head? = some c) : s.head? = some c := by
  obtain ⟨u, _, hu⟩ := rstripP_append p s
  rw [hu]
  rw [List.head?_append_of_ne_nil]
  · exact h
  · intro hnil
    rw [hnil] at h
    simp at h

/-! Lemmas about `pyStrip`. -/

theorem pyStrip_head? (s : Str) (c : Char)
    (h : (pyStrip s).head? = some c) : pyIsSpace c = false := by
  unfold pyStrip at h
  exact head?_dropWhile pyIsSpace s c (head?_rstripP _ _ _ h)

theorem pyStrip_getLast? (s : Str) (c : Char)
    (h : (pyStrip s).getLast? = some c) : pyIsSpace c = false :=
  rstripP_getLast? pyIsSpace _ c h

theorem pyStrip_eq_self (s : Str)
    (hh : ∀ c, s.head? = some c → pyIsSpace c = false)
    (hl : ∀ c, s.getLast? = some c → pyIsSpace c = false) :
    pyStrip s = s := by
  unfold pyStrip
  rw [dropWhile_eq_self_of_head? _ _ hh]
  exact rstripP_eq_self _ _ hl

theorem pyStrip_idem (s : Str) : pyStrip (pyStrip s) = pyStrip s := by
  apply pyStrip_eq_self
  · exact pyStrip_head? s
  · exact pyStrip_getLast? s

theorem pyStrip_length_le (s : Str) : (pyStrip s).length ≤ s.length := by
  unfold pyStrip
  calc (rstripP pyIsSpace (s.dropWhile pyIsSpace)).length
      ≤ (s.dropWhile pyIsSpace).length := rstripP_length_le _ _
    _ ≤ s.length := (List.dropWhile_sublist _).length_le

theorem mem_pyStrip (s : Str) (c : Char) (h : c ∈ pyStrip s) : c ∈ s := by
  unfold pyStrip at h
  exact (List.dropWhile_sublist _).mem (mem_rstripP _ _ _ h)

/-! Lemmas about whitespace collapsing.  `wsOk s` says every whitespace
character of `s` is a single space followed by a non-space (or the end):
exactly the shape `collapseGo` produces and leaves unchanged. -/

theorem collapseGo_cons_ws_true (c : Char) (t : Str) (hc : pyIsSpace c = true) :
    collapseGo true (c :: t) = collapseGo true t := by
  simp [collapseGo, hc]

theorem collapseGo_cons_ws_false (c : Char) (t : Str) (hc : pyIsSpace c = true) :
    collapseGo false (c :: t) = ' ' :: collapseGo true t := by
  simp [collapseGo, hc]

theorem collapseGo_cons_not_ws (b : Bool) (c : Char) (t : Str)
    (hc : pyIsSpace c = false) :
    collapseGo b (c :: t) = c :: collapseGo false t := by
  simp [collapseGo, hc]

theorem headNotWS_collapseGo_true (s : Str) :
    headNotWS (collapseGo true s) = true := by
  induction s with
  | nil => rfl
  | cons c t ih =>
    by_cases hc : pyIsSpace c
    · rw [collapseGo_cons_ws_true c t hc]
      exact ih
    · rw [collapseGo_cons_not_ws true c t (by simpa using hc)]
      simp [headNotWS]
      simpa using hc

theorem wsOk_cons_not_ws (c : Char) (x : Str) (hc : pyIsSpace c = false)
    (hx : wsOk x = true) : wsOk (c :: x) = true := by
  simp [wsOk, hc, hx]

theorem wsOk_collapseGo (s : Str) : ∀ b, wsOk (collapseGo b s) = true := by
  induction s with
  | nil => intro b; rfl
  | cons c t ih =>
    intro b
    by_cases hc : pyIsSpace c
    · cases b with
      | true =>
        rw [collapseGo_cons_ws_true c t hc]
        exact ih true
      | false =>
        rw [collapseGo_cons_ws_false c t hc]
        simp only [wsOk]
        rw [ih true, headNotWS_collapseGo_true]
        simp
    · rw [collapseGo_cons_not_ws b c t (by simpa using hc)]
      exact wsOk_cons_not_ws c _ (by simpa using hc) (ih false)

theorem wsOk_collapseWS (s : Str) : wsOk (collapseWS s) = true :=
  wsOk_collapseGo s false

/-- `collapseGo` leaves canonical strings unchanged; in state `true` this
needs the head to be non-whitespace. -/
theorem collapseGo_fix (s : Str) (h : wsOk s = true) :
    collapseGo false s = s ∧
      (headNotWS s = true → collapseGo true s = s) := by
  induction s with
  | nil => exact ⟨rfl, fun _ => rfl⟩
  | cons c t ih =>
    simp only [wsOk, Bool.and_eq_true] at h
    obtain ⟨hc, ht⟩ := h
    obtain ⟨ihf, iht⟩ := ih ht
    by_cases hws : pyIsSpace c
    · simp only [hws, Bool.not_true, Bool.false_or, Bool.and_eq_true] at hc
      obtain ⟨hsp, hhead⟩ := hc
      have hc' : c = ' ' := by simpa using hsp
      subst hc'
      constructor
      · rw [collapseGo_cons_ws_false ' ' t hws, iht hhead]
      · intro hhd
        simp [headNotWS, hws] at hhd
    · rw [Bool.not_eq_true] at hws
      constructor
      · rw [collapseGo_cons_not_ws false c t hws, ihf]
      · intro _
        rw [collapseGo_cons_not_ws true c t hws, ihf]

theorem collapseWS_fix (s : Str) (h : wsOk s = true) : collapseWS s = s :=
  (collapseGo_fix s h).1

theorem headNotWS_append (x u : Str) (h : headNotWS (x ++ u) = true) :
    headNotWS x = true := by
  cases x with
  | nil => rfl
  | cons c t => simpa [headNotWS] using h

theorem wsOk_append_left (t u : Str) (h : wsOk (t ++ u) = true) :
    wsOk t = true := by
  induction t with
  | nil => rfl
  | cons c t' ih =>
    rw [List.cons_append] at h
    simp only [wsOk, Bool.and_eq_true] at h
    obtain ⟨hc, ht⟩ := h
    simp only [wsOk, Bool.and_eq_true]
    refine ⟨?_, ih ht⟩
    rcases Bool.or_eq_true_iff.mp hc with h1 | h1
    · simp [h1]
    · rw [Bool.and_eq_true] at h1
      obtain ⟨h1, h2⟩ := h1
      have hc' : c = ' ' := by simpa using h1
      subst hc'
      have h3 := headNotWS_append t' u h2
      simp [h3]

theorem wsOk_mem_ws (s : Str) (h : wsOk s = true) (c : Char)
    (hc : c ∈ s) (hw : pyIsSpace c = true) : c = ' ' := by
  induction s with
  | nil => cases hc
  | cons a t ih =>
    simp only [wsOk, Bool.and_eq_true] at h
    obtain ⟨ha, ht⟩ := h
    rcases List.mem_cons.mp hc with rfl | hmem
    · rcases Bool.or_eq_true_iff.mp ha with h1 | h1
      · simp [hw] at h1
      · rw [Bool.and_eq_true] at h1
        simpa using h1.1
    · exact ih ht hmem

theorem length_collapseGo (s : Str) : ∀ b, (collapseGo b s).length ≤ s.length := by
  induction s with
  | nil => intro b; simp [collapseGo]
  | cons c t ih =>
    intro b
    by_cases hc : pyIsSpace c
    · cases b with
      | true =>
        rw [collapseGo_cons_ws_true c t hc]
        have := ih true
        simp only [List.length_cons]
        omega
      | false =>
        rw [collapseGo_cons_ws_false c t hc]
        have := ih true
        simp only [List.length_cons]
        omega
    · rw [collapseGo_cons_not_ws b c t (by simpa using hc)]
      have := ih false
      simp only [List.length_cons]
      omega

theorem mem_collapseGo (s : Str) : ∀ b c, c ∈ collapseGo b s →
    c = ' ' ∨ c ∈ s := by
  induction s with
  | nil => intro b c h; simp [collapseGo] at h
  | cons a t ih =>
    intro b c h
    by_cases ha : pyIsSpace a
    · cases b with
      | true =>
        rw [collapseGo_cons_ws_true a t ha] at h
        rcases ih true c h with h1 | h1
        · exact Or.inl h1
        · exact Or.inr (List.mem_cons_of_mem a h1)
      | false =>
        rw [collapseGo_cons_ws_false a t ha] at h
        rcases List.mem_cons.mp h with rfl | hmem
        · exact Or.inl rfl
        · rcases ih true c hmem with h1 | h1
          · exact Or.inl h1
          · exact Or.inr (List.mem_cons_of_mem a h1)
    · rw [collapseGo_cons_not_ws b a t (by simpa using ha)] at h
      rcases List.mem_cons.mp h with rfl | hmem
      · exact Or.inr (List.mem_cons_self c t)
      · rcases ih false c hmem with h1 | h1
        · exact Or.inl h1
        · exact Or.inr (List.mem_cons_of_mem a h1)

theorem head?_collapseGo_false (c : Char) (t : Str) (hc : pyIsSpace c = false) :
    collapseGo false (c :: t) = c :: collapseGo false t := by
  simp [collapseGo, hc]

/-! Lemmas about replacing reserved characters. -/

theorem isInvalid_not_ws (c : Char) (h : isInvalid c = true) :
    pyIsSpace c = false := by
  have hm : c ∈ INVALID_CHARS := by
    simpa [isInvalid] using h
  simp only [INVALID_CHARS, List.mem_cons, List.not_mem_nil, or_false] at hm
  rcases hm with rfl | rfl | rfl | rfl | rfl | rfl | rfl | rfl | rfl <;> decide

theorem mem_replaceInvalid (s : Str) (c : Char) (h : c ∈ replaceInvalid s) :
    isInvalid c = false := by
  unfold replaceInvalid at h
  rw [List.mem_map] at h
  obtain ⟨a, _, ha⟩ := h
  by_cases hi : isInvalid a
  · simp [hi] at ha
    subst ha
    rfl
  · simp [hi] at ha
    subst ha
    simpa using hi

theorem replaceInvalid_eq_self (s : Str)
    (h : ∀ c ∈ s, isInvalid c = false) : replaceInvalid s = s := by
  induction s with
  | nil => rfl
  | cons a t ih =>
    have ht := ih (fun c hc => h c (List.mem_cons_of_mem a hc))
    unfold replaceInvalid at ht ⊢
    simp only [List.map_cons]
    rw [ht]
    simp [h a (List.mem_cons_self a t)]

theorem replaceInvalid_ws (c : Char) :
    pyIsSpace (if isInvalid c then '_' else c) = pyIsSpace c := by
  by_cases hi : isInvalid c
  · simp [hi]
    rw [isInvalid_not_ws c (by simpa using hi)]
    rfl
  · simp [hi]

theorem length_replaceInvalid (s : Str) :
    (replaceInvalid s).length = s.length := by
  simp [replaceInvalid]

theorem head?_replaceInvalid_not_ws (s : Str) (c : Char)
    (hh : ∀ d, s.head? = some d → pyIsSpace d = false)
    (h : (replaceInvalid s).head? = some c) : pyIsSpace c = false := by
  cases s with
  | nil => simp [replaceInvalid] at h
  | cons a t =>
    simp only [replaceInvalid, List.map_cons, List.head?_cons,
      Option.some.injEq] at h
    subst h
    rw [replaceInvalid_ws a]
    exact hh a rfl

/-! Invariants of `cleaned` and the fixpoint argument for re-sanitizing. -/

theorem mem_cleaned (x : Str) (c : Char) (h : c ∈ cleaned x) :
    isInvalid c = false := by
  unfold cleaned rstripSpaceDot at h
  have h1 : c ∈ collapseWS (replaceInvalid (pyStrip x)) := mem_rstripP _ _ _ h
  rcases mem_collapseGo _ false c h1 with rfl | h2
  · rfl
  · exact mem_replaceInvalid _ c h2

theorem wsOk_cleaned (x : Str) : wsOk (cleaned x) = true := by
  unfold cleaned rstripSpaceDot
  obtain ⟨u, _, hu⟩ :=
    rstripP_append (fun c => c = ' ' || c = '.')
      (collapseWS (replaceInvalid (pyStrip x)))
  apply wsOk_append_left _ u
  rw [← hu]
  exact wsOk_collapseWS _

theorem cleaned_getLast? (x : Str) (c : Char)
    (h : (cleaned x).getLast? = some c) :
    (c = ' ' || c = '.') = false := by
  unfold cleaned rstripSpaceDot at h
  exact rstripP_getLast? _ _ c h

theorem cleaned_head? (x : Str) (c : Char)
    (h : (cleaned x).head? = some c) : pyIsSpace c = false := by
  unfold cleaned rstripSpaceDot at h
  have h1 := head?_rstripP _ _ _ h
  unfold collapseWS at h1
  cases hx : replaceInvalid (pyStrip x) with
  | nil => rw [hx] at h1; simp [collapseGo] at h1
  | cons a t =>
    rw [hx] at h1
    by_cases ha : pyIsSpace a
    · rw [collapseGo_cons_ws_false a t ha] at h1
      simp only [List.head?_cons, Option.some.injEq] at h1
      subst h1
      exfalso
      have := head?_replaceInvalid_not_ws (pyStrip x) a
        (pyStrip_head? x) (by rw [hx]; rfl)
      simp [this] at ha
    · rw [collapseGo_cons_not_ws false a t (by simpa using ha)] at h1
      simp only [List.head?_cons, Option.some.injEq] at h1
      subst h1
      simpa using ha

theorem cleaned_length_le (x : Str) : (cleaned x).length ≤ x.length := by
  unfold cleaned rstripSpaceDot
  calc (rstripP (fun c => c = ' ' || c = '.')
        (collapseWS (replaceInvalid (pyStrip x)))).length
      ≤ (collapseWS (replaceInvalid (pyStrip x))).length := rstripP_length_le _ _
    _ ≤ (replaceInvalid (pyStrip x)).length := length_collapseGo _ false
    _ = (pyStrip x).length := length_replaceInvalid _
    _ ≤ x.length := pyStrip_length_le x

/-- A cleaned string is untouched by a second cleaning pass. -/
theorem cleaned_fix (x : Str) : cleaned (cleaned x) = cleaned x := by
  have hws := wsOk_cleaned x
  have hlast := cleaned_getLast? x
  have hlast_ws : ∀ c, (cleaned x).getLast? = some c → pyIsSpace c = false := by
    intro c hc
    by_cases hw : pyIsSpace c
    · have hmem : c ∈ cleaned x := by
        rcases List.getLast?_eq_some_iff.mp hc with ⟨l, hl⟩
        rw [hl]
        simp
      have := wsOk_mem_ws _ hws c hmem (by simpa using hw)
      subst this
      have := hlast ' ' hc
      simp at this
    · simpa using hw
  have h1 : pyStrip (cleaned x) = cleaned x :=
    pyStrip_eq_self _ (cleaned_head? x) hlast_ws
  have h2 : replaceInvalid (cleaned x) = cleaned x :=
    replaceInvalid_eq_self _ (mem_cleaned x)
  have h3 : collapseWS (cleaned x) = cleaned x := collapseWS_fix _ hws
  have h4 : rstripSpaceDot (cleaned x) = cleaned x :=
    rstripP_eq_self _ _ hlast
  calc cleaned (cleaned x)
      = rstripSpaceDot (collapseWS (replaceInvalid (pyStrip (cleaned x)))) :=
        rfl
    _ = cleaned x := by rw [h1, h2, h3, h4]

theorem sanitize_def (x : Str) : sanitize_filename x =
    (if (if 180 < (cleaned x).length
          then rstripP pyIsSpace ((cleaned x).take 180)
          else cleaned x).isEmpty
     then "video".data
     else if 180 < (cleaned x).length
          then rstripP pyIsSpace ((cleaned x).take 180)
          else cleaned x) := rfl

theorem sanitize_length_le (x : Str) : (sanitize_filename x).length ≤ 180 := by
  rw [sanitize_def]
  by_cases ht : 180 < (cleaned x).length
  · rw [if_pos ht]
    by_cases he : (rstripP pyIsSpace ((cleaned x).take 180)).isEmpty
    · rw [if_pos he]
      decide
    · rw [if_neg he]
      calc (rstripP pyIsSpace ((cleaned x).take 180)).length
          ≤ ((cleaned x).take 180).length := rstripP_length_le _ _
        _ ≤ 180 := by simp [List.length_take]
  · rw [if_neg ht]
    by_cases he : (cleaned x).isEmpty
    · rw [if_pos he]
      decide
    · rw [if_neg he]
      omega

theorem sanitize_no_invalid (x : Str) (c : Char)
    (h : c ∈ sanitize_filename x) : isInvalid c = false := by
  rw [sanitize_def] at h
  by_cases ht : 180 < (cleaned x).length
  · simp only [ht, if_true] at h
    by_cases he : (rstripP pyIsSpace ((cleaned x).take 180)).isEmpty
    · simp only [he, if_true] at h
      have : c ∈ ['v', 'i', 'd', 'e', 'o'] := by simpa using h
      simp only [List.mem_cons, List.not_mem_nil, or_false] at this
      rcases this with rfl | rfl | rfl | rfl | rfl <;> decide
    · simp only [he, if_false] at h
      exact mem_cleaned x c (List.mem_of_mem_take (mem_rstripP _ _ _ h))
  · simp only [ht, if_false] at h
    by_cases he : (cleaned x).isEmpty
    · simp only [he, if_true] at h
      have : c ∈ ['v', 'i', 'd', 'e', 'o'] := by simpa using h
      simp only [List.mem_cons, List.not_mem_nil, or_false] at this
      rcases this with rfl | rfl | rfl | rfl | rfl <;> decide
    · simp only [he, if_false] at h
      exact mem_cleaned x c h

theorem sanitize_eq_of_short (x : Str) (h : x.length ≤ 180) :
    sanitize_filename x =
      (if (cleaned x).isEmpty then "video".data else cleaned x) := by
  rw [sanitize_def]
  have hc := cleaned_length_le x
  have ht : ¬180 < (cleaned x).length := by omega
  rw [if_neg ht]

theorem sanitize_video : sanitize_filename "video".data = "video".data := by
  decide

theorem sanitize_idem_of_short (x : Str) (h : x.length ≤ 180) :
    sanitize_filename (sanitize_filename x) = sanitize_filename x := by
  rw [sanitize_eq_of_short x h]
  by_cases he : (cleaned x).isEmpty
  · rw [if_pos he]
    exact sanitize_video
  · rw [if_neg he]
    have hlen : (cleaned x).length ≤ 180 := le_trans (cleaned_length_le x) h
    rw [sanitize_eq_of_short _ hlen, cleaned_fix]
    rw [if_neg he]

theorem sanitize_sanitize_idem (x : Str) :
    sanitize_filename (sanitize_filename (sanitize_filename x)) =
      sanitize_filename (sanitize_filename x) :=
  sanitize_idem_of_short _ (sanitize_length_le x)

/-! The behaviour of `sanitize_filename` on all-reserved input. -/

theorem mem_of_getLast? (s : Str) (c : Char) (h : s.getLast? = some c) :
    c ∈ s := by
  rcases List.getLast?_eq_some_iff.mp h with ⟨l, hl⟩
  rw [hl]
  simp

theorem dropWhile_replicate (p : Char → Bool) (n : Nat) (a : Char)
    (h : p a = false) :
    (List.replicate n a).dropWhile p = List.replicate n a := by
  cases n with
  | zero => rfl
  | succ m =>
    rw [List.replicate_succ, List.dropWhile_cons]
    simp [h]

theorem rstripP_replicate (p : Char → Bool) (n : Nat) (a : Char)
    (h : p a = false) :
    rstripP p (List.replicate n a) = List.replicate n a := by
  unfold rstripP
  rw [List.reverse_replicate, dropWhile_replicate p n a h,
    List.reverse_replicate]

theorem collapseGo_replicate (a : Char) (ha : pyIsSpace a = false) :
    ∀ (n : Nat) (b : Bool),
      collapseGo b (List.replicate n a) = List.replicate n a := by
  intro n
  induction n with
  | zero => intro b; rfl
  | succ m ih =>
    intro b
    rw [List.replicate_succ, collapseGo_cons_not_ws b a _ ha, ih false,
      ← List.replicate_succ]

theorem pyStrip_all_not_ws (s : Str)
    (h : ∀ c ∈ s, pyIsSpace c = false) : pyStrip s = s := by
  apply pyStrip_eq_self
  · intro c hc
    cases s with
    | nil => simp at hc
    | cons a t =>
      simp only [List.head?_cons, Option.some.injEq] at hc
      subst hc
      exact h a (List.mem_cons_self a t)
  · intro c hc
    exact h c (mem_of_getLast? s c hc)

theorem replaceInvalid_all_invalid (s : Str)
    (h : ∀ c ∈ s, isInvalid c = true) :
    replaceInvalid s = List.replicate s.length '_' := by
  induction s with
  | nil => rfl
  | cons a t ih =>
    unfold replaceInvalid at ih ⊢
    simp only [List.map_cons, List.length_cons, List.replicate_succ]
    rw [ih (fun c hc => h c (List.mem_cons_of_mem a hc))]
    simp [h a (List.mem_cons_self a t)]

theorem cleaned_all_invalid (x : Str)
    (h : ∀ c ∈ x, isInvalid c = true) :
    cleaned x = List.replicate x.length '_' := by
  unfold cleaned
  rw [pyStrip_all_not_ws x (fun c hc => isInvalid_not_ws c (h c hc))]
  rw [replaceInvalid_all_invalid x h]
  unfold collapseWS
  rw [collapseGo_replicate '_' (by decide) x.length false]
  unfold rstripSpaceDot
  rw [rstripP_replicate _ _ _ (by decide)]

theorem sanitize_all_invalid (x : Str) (hne : x ≠ [])
    (h : ∀ c ∈ x, isInvalid c = true) :
    sanitize_filename x = List.replicate (min x.length 180) '_' := by
  rw [sanitize_def, cleaned_all_invalid x h]
  have hlen : 1 ≤ x.length := by
    cases x with
    | nil => simp at hne
    | cons a t => simp
  by_cases ht : 180 < (List.replicate x.length '_').length
  · rw [if_pos ht]
    rw [List.take_replicate]
    rw [rstripP_replicate _ _ _ (by decide)]
    simp only [List.length_replicate] at ht
    have hmin : min 180 x.length = 180 := by omega
    have hmin2 : min x.length 180 = 180 := by omega
    rw [hmin, hmin2]
    have : ¬(List.replicate 180 '_').isEmpty := by decide
    rw [if_neg this]
  · rw [if_neg ht]
    simp only [List.length_replicate] at ht
    have hmin : min x.length 180 = x.length := by omega
    rw [hmin]
    have : ¬(List.replicate x.length '_').isEmpty = true := by
      cases x with
      | nil => simp at hne
      | cons a t => simp [List.replicate_succ]
    rw [if_neg this]

/-! Glob patterns built from a wildcard-free base followed by `.*` match
exactly the file names with the base-plus-period prefix. -/

theorem charBeq_eq_decide (a b : Char) : (a == b) = decide (a = b) := by
  by_cases h : a = b <;> simp [h]

theorem transGo_succ_cons (f : Nat) (c : Char) (p : Str) :
    transGo (f + 1) (c :: p) =
      (if c = '*' then .star :: transGo f p
       else if c = '?' then .anyChar :: transGo f p
       else if c = '[' then
         match parseClass p with
         | some (stuff, rest) => .cls stuff :: transGo f rest
         | none => .lit '[' :: transGo f p
       else .lit c :: transGo f p) := rfl

theorem translateTokens_lits_append (s t : Str)
    (h : ∀ c ∈ s, c ≠ '*' ∧ c ≠ '?' ∧ c ≠ '[') :
    translateTokens (s ++ t) = s.map GlobTok.lit ++ translateTokens t := by
  induction s with
  | nil => simp [translateTokens]
  | cons c s' ih =>
    obtain ⟨h1, h2, h3⟩ := h c (List.mem_cons_self c s')
    have ih' := ih (fun d hd => h d (List.mem_cons_of_mem c hd))
    show transGo ((c :: (s' ++ t)).length) (c :: (s' ++ t)) = _
    rw [List.length_cons, transGo_succ_cons, if_neg h1, if_neg h2, if_neg h3]
    rw [show transGo (s' ++ t).length (s' ++ t) = translateTokens (s' ++ t)
      from rfl]
    rw [ih']
    simp

theorem matchToks_star (s : Str) : matchToks [GlobTok.star] s = true := by
  simp only [matchToks]
  rw [List.any_eq_true]
  refine ⟨[], (List.mem_tails _ _).mpr List.nil_suffix, ?_⟩
  rfl

theorem matchToks_lits_dot_star (xs : Str) : ∀ (s : Str),
    matchToks (xs.map GlobTok.lit ++ [GlobTok.lit '.', GlobTok.star]) s =
      (xs ++ ['.']).isPrefixOf s := by
  induction xs with
  | nil =>
    intro s
    cases s with
    | nil => rfl
    | cons d s' =>
      have e1 : matchToks (([] : Str).map GlobTok.lit ++
          [GlobTok.lit '.', GlobTok.star]) (d :: s') =
          (decide ('.' = d) && matchToks [GlobTok.star] s') := rfl
      have e2 : ((([] : Str) ++ ['.']).isPrefixOf (d :: s')) =
          (('.' == d) && (([] : Str).isPrefixOf s')) := rfl
      rw [e1, e2, matchToks_star, charBeq_eq_decide]
      simp [List.isPrefixOf]
  | cons x xs' ih =>
    intro s
    cases s with
    | nil => rfl
    | cons d s' =>
      have e1 : matchToks ((x :: xs').map GlobTok.lit ++
          [GlobTok.lit '.', GlobTok.star]) (d :: s') =
          (decide (x = d) &&
            matchToks (xs'.map GlobTok.lit ++
              [GlobTok.lit '.', GlobTok.star]) s') := rfl
      have e2 : (((x :: xs') ++ ['.']).isPrefixOf (d :: s')) =
          ((x == d) && ((xs' ++ ['.']).isPrefixOf s')) := rfl
      rw [e1, e2, ih s', charBeq_eq_decide]

theorem globMatch_eq_prefix (safe f : Str) (h1 : '[' ∉ safe)
    (h2 : '*' ∉ safe) (h3 : '?' ∉ safe) :
    globMatch (safe ++ ['.', '*']) f = (safe ++ ['.']).isPrefixOf f := by
  unfold globMatch
  rw [translateTokens_lits_append safe ['.', '*']
    (fun c hc => ⟨fun he => h2 (he ▸ hc), fun he => h3 (he ▸ hc),
      fun he => h1 (he ▸ hc)⟩)]
  rw [show translateTokens ['.', '*'] = [GlobTok.lit '.', GlobTok.star]
    from rfl]
  exact matchToks_lits_dot_star safe f

theorem filter_isEmpty_any (L : List Str) (p : Str → Bool) :
    (!(L.filter p).isEmpty) = L.any p := by
  induction L with
  | nil => rfl
  | cons a t ih =>
    rw [List.filter_cons]
    by_cases ha : p a
    · simp [ha]
    · simp only [ha, if_neg, Bool.false_eq_true, not_false_eq_true, if_false]
      rw [ih]
      simp [ha]

theorem any_congr_pred (L : List Str) (p q : Str → Bool)
    (h : ∀ a, p a = q a) : L.any p = L.any q := by
  induction L with
  | nil => rfl
  | cons a t ih => simp [List.any_cons, h a, ih]

/-- For safe names without glob metacharacters, the code's existence check
coincides with the literal prefix test of the spec. -/
theorem existsCheck_eq_of_no_meta (listing : List Str) (safe : Str)
    (h1 : '[' ∉ safe) (h2 : '*' ∉ safe) (h3 : '?' ∉ safe) :
    existsCheck_code listing safe = existsCheck_spec listing safe := by
  unfold existsCheck_code existsCheck_spec
  rw [filter_isEmpty_any]
  exact any_congr_pred listing _ _
    (fun f => globMatch_eq_prefix safe f h1 h2 h3)

theorem sanitize_no_star (name : Str) : '*' ∉ sanitize_filename name := by
  intro hmem
  have := sanitize_no_invalid name '*' hmem
  exact absurd this (by decide)

theorem sanitize_no_question (name : Str) : '?' ∉ sanitize_filename name := by
  intro hmem
  have := sanitize_no_invalid name '?' hmem
  exact absurd this (by decide)

/-! Characterization of the orchestrator loop. -/

theorem tallyOf_eq (ev : ItemEvent) :
    tallyOf ev = if isFailed ev then 0 else 1 := by
  cases ev <;> rfl

theorem mainGo_eq (listings : Nat → List Str) (ov : Bool)
    (cap : Str → Except Str Unit) :
    ∀ (es : List Entry) (i c : Nat),
      mainGo listings ov cap i c es =
        (evList listings ov cap i es,
         c + ((evList listings ov cap i es).filter
            (fun ev => !isFailed ev)).length) := by
  intro es
  induction es with
  | nil => intro i c; simp [mainGo, evList]
  | cons e rest ih =>
    intro i c
    simp only [mainGo, evList]
    rw [ih (i + 1) (c + tallyOf (download_video (listings i) ov cap e.name e.url))]
    rw [Prod.mk.injEq]
    refine ⟨rfl, ?_⟩
    rw [List.filter_cons, tallyOf_eq]
    by_cases hf : isFailed (download_video (listings i) ov cap e.name e.url)
    · rw [if_pos hf]
      rw [if_neg (by rw [hf]; decide)]
      omega
    · rw [if_neg hf]
      rw [Bool.not_eq_true] at hf
      rw [if_pos (by rw [hf]; decide)]
      rw [List.length_cons]
      omega

theorem evList_length (listings : Nat → List Str) (ov : Bool)
    (cap : Str → Except Str Unit) :
    ∀ (es : List Entry) (i : Nat),
      (evList listings ov cap i es).length = es.length := by
  intro es
  induction es with
  | nil => intro i; rfl
  | cons e rest ih =>
    intro i
    simp only [evList, List.length_cons, ih (i + 1)]

/-! Characterization of the reader. -/

theorem headerlessGo_eq : ∀ (rows : List (List Str)) (i : Nat),
    headerlessGo i rows = (hlEntries rows, hlLogs rows i) := by
  intro rows
  induction rows with
  | nil => intro i; rfl
  | cons row rest ih =>
    intro i
    simp only [headerlessGo, ih (i + 1)]
    unfold hlEntries hlLogs
    rw [List.enumFrom_cons]
    simp only [List.filterMap_cons]
    by_cases hlen : row.length < 2
    · rw [if_pos hlen]
      simp only [hlen, if_true]
    · rw [if_neg hlen]
      simp only [hlen, if_false]
      by_cases hok : (!(pyStrip (row.getD 0 [])).isEmpty &&
          !(pyStrip (row.getD 1 [])).isEmpty)
      · rw [if_pos hok]
        simp only [hok, if_true]
      · rw [if_neg hok]
        simp only [hok, Bool.false_eq_true, if_false]

theorem rowEntry_ok (header : List Str) (n u : Str) (row : List Str)
    (e : Entry) (h : rowEntry header n u row = some e) :
    pyStrip e.name = e.name ∧ e.name ≠ [] ∧
      pyStrip e.url = e.url ∧ e.url ≠ [] := by
  unfold rowEntry at h
  by_cases hok : (!(pyStrip (lookupCol header row n)).isEmpty &&
      !(pyStrip (lookupCol header row u)).isEmpty)
  · rw [if_pos hok] at h
    rw [Bool.and_eq_true] at hok
    obtain ⟨h1, h2⟩ := hok
    simp only [Option.some.injEq] at h
    subst h
    simp only []
    refine ⟨pyStrip_idem _, ?_, pyStrip_idem _, ?_⟩
    · intro hnil
      rw [hnil] at h1
      simp at h1
    · intro hnil
      rw [hnil] at h2
      simp at h2
  · rw [if_neg hok] at h
    cases h

theorem headerlessGo_entries_ok : ∀ (rows : List (List Str)) (i : Nat)
    (e : Entry), e ∈ (headerlessGo i rows).1 →
    pyStrip e.name = e.name ∧ e.name ≠ [] ∧
      pyStrip e.url = e.url ∧ e.url ≠ [] := by
  intro rows
  induction rows with
  | nil => intro i e he; cases he
  | cons row rest ih =>
    intro i e he
    simp only [headerlessGo] at he
    by_cases hlen : row.length < 2
    · rw [if_pos hlen] at he
      exact ih (i + 1) e he
    · rw [if_neg hlen] at he
      by_cases hok : (!(pyStrip (row.getD 0 [])).isEmpty &&
          !(pyStrip (row.getD 1 [])).isEmpty)
      · rw [if_pos hok] at he
        rcases List.mem_cons.mp he with rfl | hmem
        · rw [Bool.and_eq_true] at hok
          obtain ⟨h1, h2⟩ := hok
          refine ⟨pyStrip_idem _, ?_, pyStrip_idem _, ?_⟩
          · intro hnil
            simp only [] at hnil
            rw [hnil] at h1
            simp at h1
          · intro hnil
            simp only [] at hnil
            rw [hnil] at h2
            simp at h2
        · exact ih (i + 1) e hmem
      · rw [if_neg hok] at he
        exact ih (i + 1) e he

/-! Claim theorems. -/

/-- Claim C1, counterexample: with a single entry whose download raises, the
entry is attempted (one `failed` event, carrying the logged name, url and
message), yet the final count is 0, not 1 — so the count does not include
the failed entry, contrary to the claim. -/
theorem C1_count_cex :
    (run_main (fun _ => []) false (fun _ => Except.error "boom".data)
        [⟨"a".data, "u".data⟩]).1 =
      [ItemEvent.failed "a".data "u".data "boom".data] ∧
    (run_main (fun _ => []) false (fun _ => Except.error "boom".data)
        [⟨"a".data, "u".data⟩]).2 ≠
      [(⟨"a".data, "u".data⟩ : Entry)].length := by
  constructor
  · rfl
  · decide

/-- Claim C1, amended: a capability failure on one entry never stops the
loop — every entry produces exactly one per-entry outcome, failures
included (each `failed` outcome carries the name, url and message of the
stderr log line) — but the final count excludes the failed entries: it
counts only the entries whose `download_video` call returned without
raising (skipped or downloaded). -/
theorem C1_amended_loop_count (listings : Nat → List Str) (ov : Bool)
    (cap : Str → Except Str Unit) (entries : List Entry) :
    (run_main listings ov cap entries).1 = evList listings ov cap 0 entries ∧
    (run_main listings ov cap entries).1.length = entries.length ∧
    (run_main listings ov cap entries).2 =
      ((run_main listings ov cap entries).1.filter
        (fun ev => !isFailed ev)).length := by
  unfold run_main
  rw [mainGo_eq listings ov cap entries 0 0]
  refine ⟨rfl, evList_length listings ov cap entries 0, by simp⟩

set_option maxRecDepth 10000 in
/-- Claim C2, counterexample: an input of 181 characters whose truncation
point falls just after a period.  Truncation keeps the period (line 29 only
strips whitespace after the cut), so a second application of the sanitizer
strips it and yields a different string. -/
theorem C2_idempotent_cex :
    sanitize_filename
        (sanitize_filename (List.replicate 179 'a' ++ ['.', 'b'])) ≠
      sanitize_filename (List.replicate 179 'a' ++ ['.', 'b']) := by
  decide

/-- Claim C2, amended: the sanitizer is idempotent whenever no truncation
occurs (in particular for every input of at most 180 characters), and it is
always idempotent from the second application on; single-application
idempotence fails only when truncation at 180 characters leaves a trailing
period. -/
theorem C2_amended_idempotent (x : Str) :
    sanitize_filename (sanitize_filename (sanitize_filename x)) =
      sanitize_filename (sanitize_filename x) ∧
    (x.length ≤ 180 →
      sanitize_filename (sanitize_filename x) = sanitize_filename x) :=
  ⟨sanitize_sanitize_idem x, sanitize_idem_of_short x⟩

/-- Witness for C2's amended theorem at the concrete input `"ab"`. -/
theorem C2_amended_witness :
    ("ab".data : Str).length ≤ 180 ∧
      sanitize_filename (sanitize_filename "ab".data) =
        sanitize_filename "ab".data :=
  ⟨by decide, (C2_amended_idempotent "ab".data).2 (by decide)⟩

/-- Claim C3, counterexample: the all-reserved input `"?"` sanitizes to
`"_"`, not to the fallback `"video"` — reserved characters are replaced by
underscores on line 22 before the emptiness fallback on line 31, so an
all-reserved input never reaches the fallback. -/
theorem C3_reserved_video_cex :
    sanitize_filename "?".data ≠ "video".data := by
  decide

/-- Claim C3, amended: the output length is always at most 180; the empty
input maps to `"video"`; but an input consisting entirely of reserved
characters maps to a string of underscores of length `min (length) 180`,
not to `"video"`. -/
theorem C3_amended_length_fallback :
    (∀ x : Str, (sanitize_filename x).length ≤ 180) ∧
    sanitize_filename [] = "video".data ∧
    (∀ x : Str, x ≠ [] → (∀ c ∈ x, isInvalid c = true) →
      sanitize_filename x = List.replicate (min x.length 180) '_') :=
  ⟨sanitize_length_le, by decide, sanitize_all_invalid⟩

/-- Witness for C3's amended theorem at the concrete all-reserved input
`"?"`. -/
theorem C3_amended_witness :
    (("?".data : Str) ≠ [] ∧ ∀ c ∈ ("?".data : Str), isInvalid c = true) ∧
      sanitize_filename "?".data =
        List.replicate (min ("?".data : Str).length 180) '_' :=
  ⟨⟨by decide, by decide⟩,
    C3_amended_length_fallback.2.2 "?".data (by decide) (by decide)⟩

/-- Claim C4: the sanitizer's output never contains a reserved character
`< > : " / \ | ? *`. -/
theorem C4_no_reserved_output (x : Str) :
    (sanitize_filename x).all (fun c => !isInvalid c) = true := by
  rw [List.all_eq_true]
  intro c hc
  rw [sanitize_no_invalid x c hc]
  rfl

theorem download_video_eq (listing : List Str) (overwrite : Bool)
    (cap : Str → Except Str Unit) (name url : Str) :
    download_video listing overwrite cap name url =
      (if existsCheck_code listing (sanitize_filename name) && !overwrite
       then ItemEvent.skipped (sanitize_filename name)
       else invokeCap cap name url (sanitize_filename name)) := rfl

/-- Claim C5, counterexample: the entry name `"[ab]"` sanitizes to itself,
and the file `"[ab].mp4"` — the safe base name followed by `.mp4` — is in
the listing with overwrite off; yet the entry is not skipped and the
capability is invoked, because line 80 treats `[ab]` as a glob character
class which does not match the literal bracket. -/
theorem C5_literal_file_cex :
    existsCheck_spec ["[ab].mp4".data] (sanitize_filename "[ab]".data) =
      true ∧
    download_video ["[ab].mp4".data] false (fun _ => Except.ok ())
        "[ab]".data "u".data =
      ItemEvent.downloaded "[ab]".data "u".data := by
  constructor
  · decide
  · decide

/-- Claim C5, amended: restricted to entries whose safe base name contains
no `[` (the only glob metacharacter that survives sanitization): when a
file named safe-base-name-period-anything is in the listing and overwrite
is off, the entry is skipped with the `[skip]` event naming the safe base
name, the result is independent of the capability (it is never invoked),
and the entry still contributes 1 to the final tally; with overwrite on,
the capability is invoked despite the existing file. -/
theorem C5_amended_skip_overwrite (listing : List Str)
    (cap : Str → Except Str Unit) (name url : Str)
    (hb : '[' ∉ sanitize_filename name) :
    (existsCheck_spec listing (sanitize_filename name) = true →
      download_video listing false cap name url =
        ItemEvent.skipped (sanitize_filename name) ∧
      (∀ cap2, download_video listing false cap2 name url =
        ItemEvent.skipped (sanitize_filename name)) ∧
      tallyOf (download_video listing false cap name url) = 1) ∧
    download_video listing true cap name url =
      invokeCap cap name url (sanitize_filename name) := by
  have hm := existsCheck_eq_of_no_meta listing (sanitize_filename name) hb
    (sanitize_no_star name) (sanitize_no_question name)
  constructor
  · intro hs
    have hcode : existsCheck_code listing (sanitize_filename name) = true := by
      rw [hm, hs]
    have h1 : ∀ cap2 : Str → Except Str Unit,
        download_video listing false cap2 name url =
          ItemEvent.skipped (sanitize_filename name) := by
      intro cap2
      rw [download_video_eq]
      rw [if_pos (by rw [hcode]; rfl)]
    refine ⟨h1 cap, h1, ?_⟩
    rw [h1 cap]
    rfl
  · rw [download_video_eq]
    rw [if_neg (by simp)]

/-- Witness for C5's amended theorem: entry `"vid"` with `"vid.mp4"`
already present is skipped when overwrite is off. -/
theorem C5_amended_witness :
    ('[' ∉ sanitize_filename "vid".data ∧
      existsCheck_spec ["vid.mp4".data] (sanitize_filename "vid".data) =
        true) ∧
    download_video ["vid.mp4".data] false (fun _ => Except.ok ())
        "vid".data "u".data =
      ItemEvent.skipped (sanitize_filename "vid".data) :=
  ⟨⟨by decide, by decide⟩,
    ((C5_amended_skip_overwrite ["vid.mp4".data] (fun _ => Except.ok ())
      "vid".data "u".data (by decide)).1 (by decide)).1⟩

/-- Claim C6, counterexample: for the safe base name `"[ab]"`, the code's
check (glob) fires on the file `"a.mp4"`, which does not start with
`"[ab]."` — wildcard (character-class) semantics are applied to the
brackets, so the check is not a literal prefix filter. -/
theorem C6_wildcard_cex :
    existsCheck_code ["a.mp4".data] "[ab]".data = true ∧
    existsCheck_spec ["a.mp4".data] "[ab]".data = false := by
  constructor
  · decide
  · decide

/-- Claim C6, amended: the existence check of line 80 applies glob
(`fnmatch`) semantics to the safe base name; it coincides with the literal
directory-listing-filtered-by-prefix test exactly when the safe base name
contains no glob metacharacter (`[`, `*`, `?` — of which only `[` can
survive sanitization). -/
theorem C6_amended_prefix_no_meta (listing : List Str) (safe : Str)
    (h1 : '[' ∉ safe) (h2 : '*' ∉ safe) (h3 : '?' ∉ safe) :
    existsCheck_code listing safe = existsCheck_spec listing safe :=
  existsCheck_eq_of_no_meta listing safe h1 h2 h3

/-- Witness for C6's amended theorem at a bracket-free name. -/
theorem C6_amended_witness :
    ('[' ∉ ("ab".data : Str) ∧ '*' ∉ ("ab".data : Str) ∧
      '?' ∉ ("ab".data : Str)) ∧
    existsCheck_code ["ab.mp4".data] "ab".data =
      existsCheck_spec ["ab.mp4".data] "ab".data :=
  ⟨⟨by decide, by decide, by decide⟩,
    C6_amended_prefix_no_meta ["ab.mp4".data] "ab".data (by decide)
      (by decide) (by decide)⟩

theorem read_rows_header_eq (header : List Str) (body : List (List Str)) :
    read_rows true (header :: body) =
      (match find_columns header with
       | (some n, some u) =>
           Except.ok (body.filterMap (rowEntry header n u),
             ([] : List (Nat × Nat)))
       | _ => Except.error (some header)) := rfl

/-- Claim C7: when the header resolves no name column or no url column,
the whole run fails fatally with an error carrying the fieldnames that
were found, no download is attempted, and the exit code is 1. -/
theorem C7_missing_columns_fatal (header : List Str)
    (body : List (List Str)) (listings : Nat → List Str) (ov : Bool)
    (cap : Str → Except Str Unit)
    (h : (find_columns header).1 = none ∨ (find_columns header).2 = none) :
    pymain true (header :: body) listings ov cap =
      MainResult.fatal (some header) ∧
    eventsOf (pymain true (header :: body) listings ov cap) = [] ∧
    exitCode (pymain true (header :: body) listings ov cap) = 1 := by
  have hr : read_rows true (header :: body) = .error (some header) := by
    rw [read_rows_header_eq]
    rcases hfc : find_columns header with ⟨o1, o2⟩
    rw [hfc] at h
    cases o1 with
    | none => cases o2 <;> rfl
    | some n =>
      cases o2 with
      | none => rfl
      | some u => simp at h
  have hm : pymain true (header :: body) listings ov cap =
      MainResult.fatal (some header) := by
    unfold pymain
    rw [hr]
  exact ⟨hm, by rw [hm]; rfl, by rw [hm]; rfl⟩

/-- Witness for C7 at the concrete header `["foo"]`, which resolves
neither column. -/
theorem C7_witness :
    ((find_columns ["foo".data]).1 = none ∨
      (find_columns ["foo".data]).2 = none) ∧
    pymain true [["foo".data]] (fun _ => []) false (fun _ => Except.ok ()) =
      MainResult.fatal (some ["foo".data]) :=
  ⟨by decide,
    (C7_missing_columns_fatal ["foo".data] [] (fun _ => []) false
      (fun _ => Except.ok ()) (by decide)).1⟩

/-- Claim C8: headerless parsing never raises, logs one skip message per
row with fewer than two fields (with its 1-based index and field count),
keeps parsing the remaining rows, and yields exactly the well-formed
entries. -/
theorem C8_headerless_short_rows (rows : List (List Str)) :
    read_rows false rows = Except.ok (hlEntries rows, hlLogs rows 1) := by
  have hred : read_rows false rows = Except.ok (headerlessGo 1 rows) := rfl
  rw [hred, headerlessGo_eq rows 1]

/-- Claim C9: every entry yielded by the reader, in both modes, has
non-empty name and url after trimming. -/
theorem C9_entries_trimmed_nonempty (hasHeader : Bool)
    (rows : List (List Str)) (res : List Entry × List (Nat × Nat))
    (h : read_rows hasHeader rows = Except.ok res) :
    ∀ e ∈ res.1, pyStrip e.name ≠ [] ∧ pyStrip e.url ≠ [] := by
  intro e he
  cases hasHeader with
  | false =>
    have hred : read_rows false rows = Except.ok (headerlessGo 1 rows) := rfl
    rw [hred] at h
    simp only [Except.ok.injEq] at h
    subst h
    have hok := headerlessGo_entries_ok rows 1 e he
    refine ⟨?_, ?_⟩
    · rw [hok.1]
      exact hok.2.1
    · rw [hok.2.2.1]
      exact hok.2.2.2
  | true =>
    cases rows with
    | nil =>
      rw [show read_rows true [] = Except.error none from rfl] at h
      simp at h
    | cons header body =>
      rw [read_rows_header_eq] at h
      rcases hfc : find_columns header with ⟨o1, o2⟩
      rw [hfc] at h
      cases o1 with
      | none => cases o2 <;> simp at h
      | some n =>
        cases o2 with
        | none => simp at h
        | some u =>
          simp only [Except.ok.injEq] at h
          subst h
          rw [List.mem_filterMap] at he
          obtain ⟨row, _, hre⟩ := he
          have hok := rowEntry_ok header n u row e hre
          refine ⟨?_, ?_⟩
          · rw [hok.1]
            exact hok.2.1
          · rw [hok.2.2.1]
            exact hok.2.2.2

/-- Witness for C9 on a concrete headerless input. -/
theorem C9_witness :
    read_rows false [["a".data, "u".data]] =
      Except.ok ([⟨"a".data, "u".data⟩], []) ∧
    (pyStrip "a".data ≠ [] ∧ pyStrip "u".data ≠ []) :=
  ⟨by decide,
    C9_entries_trimmed_nonempty false [["a".data, "u".data]]
      ([⟨"a".data, "u".data⟩], []) (by decide) ⟨"a".data, "u".data⟩
      (by decide)⟩

theorem lookupCol_short (header row : List Str) (col : Str) (i : Nat)
    (hli : lastIdxOf header col = some i) (hlen : row.length ≤ i) :
    lookupCol header row col = [] := by
  unfold lookupCol
  rw [hli]
  exact List.getD_eq_default _ _ hlen

/-- Claim C10: in header mode with both columns resolved, a row whose
resolved name or url field is absent (fewer fields than the column index)
is treated like an empty field: yielded rows are exactly the non-empty
ones, no stderr message is produced (the log component is empty), and no
exception is raised (the result is `ok`). -/
theorem C10_header_absent_fields (header : List Str)
    (rows : List (List Str)) (n u : Str)
    (hfc : find_columns header = (some n, some u)) :
    read_rows true (header :: rows) =
      Except.ok (rows.filterMap (rowEntry header n u), []) ∧
    (∀ (row : List Str) (i : Nat), lastIdxOf header n = some i →
      row.length ≤ i → rowEntry header n u row = none) ∧
    (∀ (row : List Str) (i : Nat), lastIdxOf header u = some i →
      row.length ≤ i → rowEntry header n u row = none) := by
  refine ⟨?_, ?_, ?_⟩
  · rw [read_rows_header_eq, hfc]
  · intro row i hli hlen
    unfold rowEntry
    rw [lookupCol_short header row n i hli hlen]
    simp [pyStrip, rstripP]
  · intro row i hli hlen
    unfold rowEntry
    rw [lookupCol_short header row u i hli hlen]
    simp [pyStrip, rstripP]

/-- Witness for C10: header `["name", "url"]` with the one-field row
`["a"]`, whose url field is absent. -/
theorem C10_witness :
    (find_columns ["name".data, "url".data] =
      (some "name".data, some "url".data) ∧
      lastIdxOf ["name".data, "url".data] "url".data = some 1) ∧
    rowEntry ["name".data, "url".data] "name".data "url".data ["a".data] =
      none :=
  ⟨⟨by decide, by decide⟩,
    (C10_header_absent_fields ["name".data, "url".data] [["a".data]]
      "name".data "url".data (by decide)).2.2 ["a".data] 1 (by decide)
      (by decide)⟩

end YtBatch
